import Mathlib

/-!
Verification of the Ocean plugin auto-builder core (src/main.py): repository
URL normalization, archive-fallback acquisition, build-system detection,
build invocation, artifact collection and filtering, and the worker
pipeline's working-directory lifecycle.

Modelling conventions:
* Filesystem paths are lists of components: os.path.join appends one
  component, os.path.dirname drops the last one, os.path.basename keeps it.
* Text processed character-wise (the URL path surgery) is handled on
  List Char, with String wrappers mirroring the Python string methods used.
* External effects (subprocesses, HTTP) are oracles; functions additionally
  return a trace of the commands or candidate URLs actually attempted, which
  is the observable the spec talks about.
-/

namespace Ocean

/-- Substring test on character lists: Python's membership test of a pattern
inside a character sequence. -/
def listContains (pat : List Char) : List Char → Bool
  | [] => pat.isEmpty
  | c :: rest => pat.isPrefixOf (c :: rest) || listContains pat rest

/-- Python's substring containment test on strings. -/
def strContains (s pat : String) : Bool := listContains pat.data s.data

/-- Python's endswith test on strings. -/
def strEndsWith (s pat : String) : Bool := pat.data.isSuffixOf s.data

/-- Character-wise lower-casing, mirroring Python's lower() on the ASCII
names the program compares. -/
def strToLower (s : String) : String := String.mk (s.data.map Char.toLower)

/-- Filesystem paths as component lists. -/
abbrev FPath := List String

/-- os.path.basename on a component path. -/
def basename (p : FPath) : String := p.getLastD ""

/-- os.path.dirname on a component path. -/
def dirname (p : FPath) : FPath := p.dropLast

/-- A produced jar file: its path and its modification time as sampled by
os.path.getmtime (only the ordering of timestamps is observable). -/
structure Jar where
  path : FPath
  mtime : Nat
deriving DecidableEq, Repr

/-- The markers excluded by filter_plugin_jars (src/main.py:249). -/
def bad_markers : List String :=
  ["sources", "javadoc", "tests", "original-", "gradle", "build-logic.jar"]

/-- The shadow/fat-jar markers (src/main.py:255). -/
def shadow_markers : List String := ["shadow", "all"]

/-- A jar is excluded when its lower-cased basename contains a bad marker. -/
def isBad (j : Jar) : Bool :=
  bad_markers.any (fun b => strContains (strToLower (basename j.path)) b)

/-- A jar counts as a shadow/fat jar when its lower-cased basename contains
one of the shadow markers. -/
def hasShadowMarker (j : Jar) : Bool :=
  shadow_markers.any (fun k => strContains (strToLower (basename j.path)) k)

/-- Stable insertion used to model Python's stable list.sort with a
modification-time key and reverse=True: a jar moves before another only when
its timestamp is at least as large, so equal timestamps keep input order. -/
def insertDesc (j : Jar) : List Jar → List Jar
  | [] => [j]
  | x :: xs => if x.mtime ≤ j.mtime then j :: x :: xs else x :: insertDesc j xs

/-- Stable descending sort by modification time (src/main.py:260). -/
def sortDesc : List Jar → List Jar
  | [] => []
  | x :: xs => insertDesc x (sortDesc xs)

/-- filter_plugin_jars (src/main.py:237): exclude bad-marker jars; with the
shadow preference, return exactly the shadow-marked survivors when any
exist; otherwise sort survivors by modification time, most recent first. -/
def filter_plugin_jars (jar_list : List Jar) (prefer_shadow : Bool := true) :
    List Jar :=
  match jar_list with
  | [] => []
  | _ =>
    let filtered := jar_list.filter (fun j => !isBad j)
    if filtered.isEmpty then []
    else if prefer_shadow then
      let shadowed := filtered.filter hasShadowMarker
      if !shadowed.isEmpty then shadowed else sortDesc filtered
    else sortDesc filtered

/-! URL normalization (src/main.py:138). URLs are modelled at the level of
urlparse output: scheme, network location, path. -/
structure Url where
  scheme : String
  netloc : String
  path : String
deriving DecidableEq, Repr

/-- The URL string exactly as the source rebuilds it: scheme, separator,
network location, path. -/
def render (u : Url) : String := u.scheme ++ "://" ++ u.netloc ++ u.path

/-- Python's rstrip of trailing slash characters. -/
def rstripSlashCh (l : List Char) : List Char :=
  (l.reverse.dropWhile (fun c => c == '/')).reverse

/-- rstrip of trailing slashes on strings. -/
def rstripSlash (s : String) : String := String.mk (rstripSlashCh s.data)

/-- Helper for splitSlash: push a character onto the first group. -/
def consHead (c : Char) : List (List Char) → List (List Char)
  | [] => [[c]]
  | g :: gs => (c :: g) :: gs

/-- Python's split on the slash character (a one-character separator). -/
def splitSlash : List Char → List (List Char)
  | [] => [[]]
  | c :: rest =>
    if c = '/' then [] :: splitSlash rest else consHead c (splitSlash rest)

/-- Python's slash-join of segment lists. -/
def joinSlash : List (List Char) → List Char
  | [] => []
  | [g] => g
  | g :: g' :: gs => g ++ '/' :: joinSlash (g' :: gs)

/-- The hosts for which normalize_repo_url truncates the path
(a substring test on the network location, as in the source). -/
def supportedHost (netloc : String) : Bool :=
  strContains netloc "github.com" || strContains netloc "gitlab.com" ||
    strContains netloc "bitbucket.org"

/-- The path rewriting normalize_repo_url performs: on a supported host,
strip trailing slashes, split on slashes, and when at least three segments
remain keep exactly the first three. -/
def normalizePath (netloc path : String) : String :=
  if supportedHost netloc then
    let parts := splitSlash (rstripSlash path).data
    if 3 ≤ parts.length then String.mk (joinSlash (parts.take 3)) else path
  else path

/-- normalize_repo_url at the level of parsed URLs: scheme and network
location are kept, the path is truncated for supported hosts. -/
def normalizeUrl (u : Url) : Url :=
  ⟨u.scheme, u.netloc, normalizePath u.netloc u.path⟩

/-- normalize_repo_url (src/main.py:138), producing the output string. -/
def normalize_repo_url (u : Url) : String :=
  if supportedHost u.netloc then
    let parts := splitSlash (rstripSlash u.path).data
    if 3 ≤ parts.length then
      u.scheme ++ "://" ++ u.netloc ++ String.mk (joinSlash (parts.take 3))
    else u.scheme ++ "://" ++ u.netloc ++ u.path
  else u.scheme ++ "://" ++ u.netloc ++ u.path

/-! Build-system detection (src/main.py:274). The filesystem is a tree of
named directories; os.walk enumerates directories top-down, each directory
before its subdirectories, the root first. -/
structure FsFile where
  name : String
  mtime : Nat
deriving DecidableEq, Repr

inductive FsTree where
  | node (name : String) (files : List FsFile) (subdirs : List FsTree)

mutual

/-- os.walk from a base path: the directory entry itself, then the entries
of its subtrees in order. -/
def FsTree.walk : FsTree → FPath → List (FPath × List FsFile)
  | .node name files subs, base =>
    (base ++ [name], files) :: walkForest subs (base ++ [name])

def walkForest : List FsTree → FPath → List (FPath × List FsFile)
  | [], _ => []
  | t :: ts, base => t.walk base ++ walkForest ts base

end

/-- The four recorded build files of find_build_files. -/
structure BuildFiles where
  gradlew : Option FPath
  build_gradle : Option FPath
  build_gradle_kts : Option FPath
  pom_xml : Option FPath
deriving DecidableEq, Repr

/-- One iteration of the inner file loop of find_build_files: each matching
name overwrites the corresponding record entry with the joined path. -/
def scanFile (dirpath : FPath) (res : BuildFiles) (f : FsFile) : BuildFiles :=
  let res := if f.name = "gradlew" then
    { res with gradlew := some (dirpath ++ [f.name]) } else res
  let res := if f.name = "build.gradle" then
    { res with build_gradle := some (dirpath ++ [f.name]) } else res
  let res := if f.name = "build.gradle.kts" then
    { res with build_gradle_kts := some (dirpath ++ [f.name]) } else res
  if f.name = "pom.xml" then
    { res with pom_xml := some (dirpath ++ [f.name]) } else res

/-- Scan one directory entry's file list. -/
def scanDir (res : BuildFiles) (dirpath : FPath) (fs : List FsFile) :
    BuildFiles :=
  fs.foldl (scanFile dirpath) res

/-- The walk loop of find_build_files: after each directory's scan, return
as soon as a gradlew has been recorded.  (The source guards the return with
an any-of-the-values test, but only returns when the gradlew entry itself
is set, and that entry is a non-empty path whenever set, so the guard is
equivalent to testing the gradlew entry.) -/
def fbLoop : BuildFiles → List (FPath × List FsFile) → BuildFiles
  | res, [] => res
  | res, (d, fs) :: rest =>
    let res := scanDir res d fs
    if res.gradlew.isSome then res else fbLoop res rest

/-- find_build_files (src/main.py:274). -/
def find_build_files (t : FsTree) : BuildFiles :=
  fbLoop ⟨none, none, none, none⟩ (t.walk [])

inductive BuildKind where
  | gradleWrapper
  | systemGradle
  | maven
  | noBuild
deriving DecidableEq, Repr

structure BuildDescriptor where
  kind : BuildKind
  rootDir : FPath
deriving DecidableEq, Repr

/-- The dispatch run_build performs on the recorded build files
(src/main.py:308): the wrapper wins outright; otherwise a gradle build file
with the plain build.gradle preferred over the kts one; otherwise maven;
otherwise nothing. -/
def detect (bf : BuildFiles) : BuildDescriptor :=
  match bf.gradlew with
  | some p => ⟨BuildKind.gradleWrapper, dirname p⟩
  | none =>
    match bf.build_gradle with
    | some p => ⟨BuildKind.systemGradle, dirname p⟩
    | none =>
      match bf.build_gradle_kts with
      | some p => ⟨BuildKind.systemGradle, dirname p⟩
      | none =>
        match bf.pom_xml with
        | some p => ⟨BuildKind.maven, dirname p⟩
        | none => ⟨BuildKind.noBuild, []⟩

/-- Jar collection after the build (src/main.py:346): every file whose name
ends in .jar, skipping anything under a .gradle directory component. -/
def collect_jars (t : FsTree) : List Jar :=
  (t.walk []).flatMap (fun e =>
    (e.2.filter (fun f =>
      strEndsWith f.name ".jar" && !(e.1.contains ".gradle"))).map
      (fun f => ⟨e.1 ++ [f.name], f.mtime⟩))

/-- An external command: its argument list. -/
abbrev Cmd := List String

def shadowCmd (win32 : Bool) : Cmd :=
  [if win32 then "gradlew.bat" else "./gradlew", "shadowJar", "-x", "test"]

def buildCmd (win32 : Bool) : Cmd :=
  [if win32 then "gradlew.bat" else "./gradlew", "build", "-x", "test"]

/-- The executor's environment: the exit status run_command observes for
each command in each working directory, and the filesystem as it stands
when jars are collected after the build commands ran. -/
structure RunEnv where
  exec : Cmd → FPath → Bool
  postTree : FsTree

/-- The system-gradle branch of run_build. -/
def gradleStep (env : RunEnv) (work_dir : FPath) :
    Bool × List Jar × List (Cmd × FPath) :=
  let cmd : Cmd := ["gradle", "build", "-x", "test"]
  if !(env.exec cmd work_dir) then (false, [], [(cmd, work_dir)])
  else
    let jars := sortDesc (collect_jars env.postTree)
    (!jars.isEmpty, jars, [(cmd, work_dir)])

/-- The maven branch of run_build. -/
def mavenStep (env : RunEnv) (work_dir : FPath) :
    Bool × List Jar × List (Cmd × FPath) :=
  let cmd : Cmd := ["mvn", "-DskipTests", "package"]
  if !(env.exec cmd work_dir) then (false, [], [(cmd, work_dir)])
  else
    let jars := sortDesc (collect_jars env.postTree)
    (!jars.isEmpty, jars, [(cmd, work_dir)])

/-- run_build (src/main.py:296): the success flag and jar list the source
returns, plus the trace of commands issued through run_command.  In the
wrapper branch the optional shadowJar invocation's exit status is read only
for logging, so the model records the invocation in the trace and moves on
to the mandatory build command either way, exactly as the source does. -/
def run_build (t : FsTree) (env : RunEnv) (prefer_shadow win32 : Bool) :
    Bool × List Jar × List (Cmd × FPath) :=
  let bf := find_build_files t
  match bf.gradlew with
  | some gp =>
    let work_dir := dirname gp
    let shadowTrace : List (Cmd × FPath) :=
      if prefer_shadow then [(shadowCmd win32, work_dir)] else []
    if !(env.exec (buildCmd win32) work_dir) then
      (false, [], shadowTrace ++ [(buildCmd win32, work_dir)])
    else
      let jars := sortDesc (collect_jars env.postTree)
      (!jars.isEmpty, jars, shadowTrace ++ [(buildCmd win32, work_dir)])
  | none =>
    match bf.build_gradle with
    | some bp => gradleStep env (dirname bp)
    | none =>
      match bf.build_gradle_kts with
      | some bp => gradleStep env (dirname bp)
      | none =>
        match bf.pom_xml with
        | some pp => mavenStep env (dirname pp)
        | none => (false, [], [])

/-- The last directory entry of the walk that holds a file of the given
name, joined with that name: the last-writer-wins accumulation the
detector's walk performs for each file type. -/
def lastPathOf (nm : String) (entries : List (FPath × List FsFile))
    (start : Option FPath) : Option FPath :=
  entries.foldl (fun acc e =>
    if nm ∈ e.2.map FsFile.name then some (e.1 ++ [nm]) else acc) start

/-! Archive-fallback acquisition (src/main.py:185).  The network is an
oracle: each candidate URL either raises during the fetch (no status) or
returns a status code; at status 200, extraction (including the flattening
of a single wrapper directory) either succeeds or raises.  Both kinds of
exception are caught by the loop's handler and move on to the next
candidate. -/
structure ZipEnv where
  status : String → Option Nat
  extractOk : String → Bool

/-- The candidate loop of try_zip_download: the source's boolean result,
paired with the list of candidate URLs actually attempted. -/
def tryCands (env : ZipEnv) : List String → Bool × List String
  | [] => (false, [])
  | c :: rest =>
    let next := tryCands env rest
    let skip := (next.1, c :: next.2)
    match env.status c with
    | none => skip
    | some code =>
      if code ≠ 200 then skip
      else if env.extractOk c then (true, [c])
      else skip

/-- os.path.basename on the URL path string: the part after the last
slash. -/
def strBasename (s : String) : String :=
  String.mk ((splitSlash s.data).getLastD [])

/-- try_zip_download (src/main.py:185): build the host-specific candidate
list — the repository URL string is the rendering of the parsed URL — and
run the candidate loop; an unsupported host fails with no attempt. -/
def try_zip_download (u : Url) (env : ZipEnv) : Bool × List String :=
  let net := strToLower u.netloc
  let path := rstripSlash u.path
  if strContains net "github.com" then
    tryCands env
      [render u ++ "/archive/refs/heads/main.zip",
        render u ++ "/archive/refs/heads/master.zip",
        render u ++ "/archive/refs/heads/develop.zip"]
  else if strContains net "gitlab.com" then
    tryCands env
      [render u ++ "/-/archive/main/" ++ strBasename path ++ "-main.zip",
        render u ++ "/-/archive/master/" ++ strBasename path ++ "-master.zip"]
  else if strContains net "bitbucket.org" then
    tryCands env [render u ++ "/get/main.zip", render u ++ "/get/master.zip"]
  else (false, [])

/-- A candidate wins when its fetch returns status 200 and its extraction
succeeds. -/
def zipSucceeds (env : ZipEnv) (c : String) : Prop :=
  env.status c = some 200 ∧ env.extractOk c = true

instance (env : ZipEnv) (c : String) : Decidable (zipSucceeds env c) := by
  unfold zipSucceeds
  infer_instance

/-- Network oracle for the C6 witness: the first candidate is missing, the
second fetches and extracts, the third would also fetch. -/
def envC6 : ZipEnv :=
  ⟨fun s => if s = "a" then some 404 else some 200, fun s => s == "b"⟩

/-! The worker pipeline (src/main.py:357).  The GUI-facing calls (status
labels, progress bar, dialogs, log widget) do not bear on the claims; the
collaborator calls' outcomes are oracles.  A Step models a call that either
returns a value or raises an exception caught by the worker's outermost
handler. -/
inductive Step (α : Type) where
  | ok (a : α)
  | exc

/-- The outcomes of the worker's collaborator calls for one run:
the resolution phase's repository URL (that phase catches its own fetch
errors and yields nothing on failure), tempfile.mkdtemp, try_git_clone
(which returns a boolean, catching its own errors), try_zip_download
(consulted only when the clone failed), run_build, and the copy loop that
writes the filtered jars to the output directory. -/
structure WorkerEnv where
  repoUrl : Option String
  mkdtempRes : Step FPath
  cloneOk : Bool
  zipOk : Bool
  buildRes : Step (Bool × List Jar)
  copyRes : Step Unit

inductive ExitKind where
  | noRepo
  | acquireFailed
  | buildFailed
  | noUsableJars
  | success
  | raised
deriving DecidableEq, Repr

/-- The worker's try-block: every early return, the success path, and every
caught exception, together with the temporary directory as created so far.
Acquisition fails exactly when the clone failed and the zip fallback failed
too; the jar filter is applied with its default shadow preference, as in
the source. -/
def workerBody (env : WorkerEnv) : Option FPath × ExitKind :=
  match env.repoUrl with
  | none => (none, ExitKind.noRepo)
  | some _ =>
    match env.mkdtempRes with
    | Step.exc => (none, ExitKind.raised)
    | Step.ok tmp =>
      if !env.cloneOk && !env.zipOk then (some tmp, ExitKind.acquireFailed)
      else
        match env.buildRes with
        | Step.exc => (some tmp, ExitKind.raised)
        | Step.ok (success, jars) =>
          if !success then (some tmp, ExitKind.buildFailed)
          else if (filter_plugin_jars jars).isEmpty then
            (some tmp, ExitKind.noUsableJars)
          else
            match env.copyRes with
            | Step.exc => (some tmp, ExitKind.raised)
            | Step.ok _ => (some tmp, ExitKind.success)

structure WorkerOutcome where
  tmpdir : Option FPath
  deleted : Bool
  surfaced : Bool
  exit : ExitKind

/-- The worker's finally-block (src/main.py:460): when a temporary
directory exists it is deleted, unless the keep flag is set, in which case
its path is surfaced in the log instead.  (The source guards the rmtree
call with its own handler for operating-system failures; the model's
filesystem deletion succeeds.) -/
def workerCleanup (body : Option FPath × ExitKind) (keep_temp : Bool) :
    WorkerOutcome :=
  match body with
  | (none, e) => ⟨none, false, false, e⟩
  | (some p, e) =>
    if keep_temp then ⟨some p, false, true, e⟩ else ⟨some p, true, false, e⟩

/-- worker_process (src/main.py:357): the try-block followed by the
finally-block on whatever the try-block produced. -/
def worker_process (env : WorkerEnv) (keep_temp : Bool) : WorkerOutcome :=
  workerCleanup (workerBody env) keep_temp

/-! The theorems: the frozen claims, their witnesses, and the helper
lemmas used to establish them. -/

/-! Basic lemmas about the jar filter. -/

theorem mem_insertDesc {a j : Jar} {l : List Jar} :
    a ∈ insertDesc j l ↔ a = j ∨ a ∈ l := by
  induction l with
  | nil => simp [insertDesc]
  | cons x xs ih =>
    simp only [insertDesc]
    split
    · simp
    · simp [ih]
      tauto

theorem mem_sortDesc {a : Jar} {l : List Jar} : a ∈ sortDesc l ↔ a ∈ l := by
  induction l with
  | nil => simp [sortDesc]
  | cons x xs ih => simp [sortDesc, mem_insertDesc, ih]

/-- Everything the filter returns survived the bad-marker exclusion step. -/

theorem mem_filtered_of_mem_fpj {j : Jar} {l : List Jar} {ps : Bool}
    (h : j ∈ filter_plugin_jars l ps) : j ∈ l.filter (fun j => !isBad j) := by
  match l with
  | [] => simp [filter_plugin_jars] at h
  | a :: l' =>
    simp only [filter_plugin_jars] at h
    split at h
    · simp at h
    · split at h
      · split at h
        · exact List.mem_of_mem_filter h
        · exact mem_sortDesc.mp h
      · exact mem_sortDesc.mp h

/-- With the shadow preference, a non-empty shadow subset of the survivors
is returned exactly, in input order. -/

theorem fpj_shadow_eq {l : List Jar}
    (h : (l.filter (fun j => !isBad j)).filter hasShadowMarker ≠ []) :
    filter_plugin_jars l true =
      (l.filter (fun j => !isBad j)).filter hasShadowMarker := by
  match l with
  | [] => simp at h
  | a :: l' =>
    simp only [filter_plugin_jars]
    have hfil : ((a :: l').filter (fun j => !isBad j)).isEmpty = false := by
      rcases e : (a :: l').filter (fun j => !isBad j) with _ | ⟨b, bs⟩
      · rw [e] at h
        simp at h
      · simp
    rw [hfil]
    simp only [Bool.false_eq_true, if_false, if_true]
    have hsh : (((a :: l').filter (fun j => !isBad j)).filter
        hasShadowMarker).isEmpty = false := by
      rcases e : ((a :: l').filter (fun j => !isBad j)).filter hasShadowMarker
          with _ | ⟨b, bs⟩
      · exact absurd e h
      · simp
    rw [hsh]
    simp

/-- Claim C2: with the shadow preference enabled, whenever some candidate
surviving the exclusion step carries a shadow marker, the filter returns
exactly the surviving candidates carrying such a marker; in particular the
pair plugin-1.0.jar / plugin-1.0-all.jar filters to the -all jar alone. -/

theorem claim_C2 :
    (∀ jar_list : List Jar,
      (jar_list.filter (fun j => !isBad j)).filter hasShadowMarker ≠ [] →
      filter_plugin_jars jar_list true =
        (jar_list.filter (fun j => !isBad j)).filter hasShadowMarker)
    ∧ filter_plugin_jars [⟨["plugin-1.0.jar"], 0⟩, ⟨["plugin-1.0-all.jar"], 0⟩]
        true = [⟨["plugin-1.0-all.jar"], 0⟩] := by
  constructor
  · intro l h
    exact fpj_shadow_eq h
  · decide

/-- Witness for C2 at a concrete candidate list. -/

theorem claim_C2_witness :
    ([(⟨["plugin-1.0.jar"], 0⟩ : Jar), ⟨["plugin-1.0-all.jar"], 0⟩].filter
        (fun j => !isBad j)).filter hasShadowMarker ≠ [] ∧
    filter_plugin_jars [⟨["plugin-1.0.jar"], 0⟩, ⟨["plugin-1.0-all.jar"], 0⟩]
        true =
      ([(⟨["plugin-1.0.jar"], 0⟩ : Jar), ⟨["plugin-1.0-all.jar"], 0⟩].filter
        (fun j => !isBad j)).filter hasShadowMarker :=
  ⟨by decide, claim_C2.1 _ (by decide)⟩

/-- Claim C3: the filter never returns a jar whose basename contains
"sources", "javadoc", "tests" or "original-" case-insensitively, whatever
the flag and however bad names are mixed with clean ones; and when the
exclusion step empties the candidate set the result is the empty list
rather than an error. -/

theorem claim_C3 :
    (∀ (l : List Jar) (ps : Bool), ∀ j ∈ filter_plugin_jars l ps,
      strContains (strToLower (basename j.path)) "sources" = false ∧
      strContains (strToLower (basename j.path)) "javadoc" = false ∧
      strContains (strToLower (basename j.path)) "tests" = false ∧
      strContains (strToLower (basename j.path)) "original-" = false)
    ∧ (∀ (l : List Jar) (ps : Bool),
        l.filter (fun j => !isBad j) = [] → filter_plugin_jars l ps = []) := by
  constructor
  · intro l ps j hj
    have hmem := mem_filtered_of_mem_fpj hj
    have hgood : isBad j = false := by
      have := List.of_mem_filter hmem
      simpa using this
    have hall : ∀ b ∈ bad_markers,
        strContains (strToLower (basename j.path)) b = false := by
      intro b hb
      by_contra hc
      have hb' : strContains (strToLower (basename j.path)) b = true := by
        revert hc
        cases strContains (strToLower (basename j.path)) b <;> simp
      have : isBad j = true := by
        unfold isBad
        exact List.any_eq_true.mpr ⟨b, hb, hb'⟩
      rw [this] at hgood
      exact Bool.true_eq_false.mp hgood
    refine ⟨hall _ ?_, hall _ ?_, hall _ ?_, hall _ ?_⟩ <;> decide
  · intro l ps hempty
    match l with
    | [] => rfl
    | a :: l' =>
      simp only [filter_plugin_jars]
      rw [hempty]
      simp

/-- Witness for C3: a mixed concrete list through the filter. -/

theorem claim_C3_witness :
    (⟨["keep-1.0.jar"], 5⟩ : Jar) ∈
      filter_plugin_jars [⟨["keep-1.0-sources.jar"], 9⟩, ⟨["keep-1.0.jar"], 5⟩]
        false ∧
    (strContains (strToLower (basename (⟨["keep-1.0.jar"], 5⟩ : Jar).path))
        "sources" = false ∧
      strContains (strToLower (basename (⟨["keep-1.0.jar"], 5⟩ : Jar).path))
        "javadoc" = false ∧
      strContains (strToLower (basename (⟨["keep-1.0.jar"], 5⟩ : Jar).path))
        "tests" = false ∧
      strContains (strToLower (basename (⟨["keep-1.0.jar"], 5⟩ : Jar).path))
        "original-" = false) :=
  ⟨by decide,
    claim_C3.1 [⟨["keep-1.0-sources.jar"], 9⟩, ⟨["keep-1.0.jar"], 5⟩] false
      ⟨["keep-1.0.jar"], 5⟩ (by decide)⟩

/-- Claim C10: the shadow test is a plain case-insensitive substring match
on the basename, so names like installer.jar or smallpets-1.0.jar count as
shadow jars and displace marker-free jars; a non-empty shadow subset is
returned as a sublist of the input (input order), not re-sorted by
modification time, as the final conjuncts exhibit on timestamps that the
descending sort would swap. -/

theorem claim_C10 :
    (∀ l : List Jar,
      (l.filter (fun j => !isBad j)).filter hasShadowMarker ≠ [] →
      List.Sublist (filter_plugin_jars l true) l)
    ∧ hasShadowMarker ⟨["installer.jar"], 0⟩ = true
    ∧ hasShadowMarker ⟨["smallpets-1.0.jar"], 0⟩ = true
    ∧ filter_plugin_jars [⟨["plugin.jar"], 9⟩, ⟨["installer.jar"], 0⟩] true
        = [⟨["installer.jar"], 0⟩]
    ∧ filter_plugin_jars [⟨["a-all.jar"], 1⟩, ⟨["b-all.jar"], 5⟩] true
        = [⟨["a-all.jar"], 1⟩, ⟨["b-all.jar"], 5⟩]
    ∧ sortDesc [⟨["a-all.jar"], 1⟩, ⟨["b-all.jar"], 5⟩]
        = [⟨["b-all.jar"], 5⟩, ⟨["a-all.jar"], 1⟩] := by
  refine ⟨?_, by decide, by decide, by decide, by decide, by decide⟩
  intro l h
  rw [fpj_shadow_eq h]
  exact (List.filter_sublist _).trans (List.filter_sublist _)

/-- Witness for C10's general part at a concrete candidate list. -/

theorem claim_C10_witness :
    ([(⟨["x-all.jar"], 1⟩ : Jar), ⟨["plain.jar"], 7⟩].filter
        (fun j => !isBad j)).filter hasShadowMarker ≠ [] ∧
    List.Sublist
      (filter_plugin_jars [⟨["x-all.jar"], 1⟩, ⟨["plain.jar"], 7⟩] true)
      [⟨["x-all.jar"], 1⟩, ⟨["plain.jar"], 7⟩] :=
  ⟨by decide, claim_C10.1 _ (by decide)⟩

/-! Lemmas about the slash split and join. -/

theorem strEqOfData {a b : String} (h : a.data = b.data) : a = b := by
  cases a
  cases b
  exact congrArg String.mk h

theorem data_append (a b : String) : (a ++ b).data = a.data ++ b.data := by
  cases a
  cases b
  rfl

theorem splitSlash_ne_nil (l : List Char) : splitSlash l ≠ [] := by
  induction l with
  | nil => simp [splitSlash]
  | cons c rest ih =>
    simp only [splitSlash]
    split
    · simp
    · rcases e : splitSlash rest with _ | ⟨g, gs⟩
      · exact absurd e ih
      · simp [consHead]

theorem splitSlash_of_no_slash {g : List Char} (h : '/' ∉ g) :
    splitSlash g = [g] := by
  induction g with
  | nil => rfl
  | cons c g ih =>
    rw [List.mem_cons, not_or] at h
    rw [splitSlash, if_neg (fun e => h.1 e.symm), ih h.2, consHead]

theorem splitSlash_append_slash {g : List Char} (l : List Char)
    (h : '/' ∉ g) : splitSlash (g ++ '/' :: l) = g :: splitSlash l := by
  induction g with
  | nil => simp [splitSlash]
  | cons c g ih =>
    rw [List.mem_cons, not_or] at h
    rw [List.cons_append, splitSlash, if_neg (fun e => h.1 e.symm), ih h.2,
      consHead]

theorem no_slash_of_mem_splitSlash {l g : List Char}
    (h : g ∈ splitSlash l) : '/' ∉ g := by
  induction l generalizing g with
  | nil =>
    simp only [splitSlash, List.mem_singleton] at h
    subst h
    simp
  | cons c rest ih =>
    simp only [splitSlash] at h
    by_cases hc : c = '/'
    · rw [if_pos hc] at h
      rcases List.mem_cons.mp h with h | h
      · subst h
        simp
      · exact ih h
    · rw [if_neg hc] at h
      rcases e : splitSlash rest with _ | ⟨g0, gs⟩
      · exact absurd e (splitSlash_ne_nil rest)
      · rw [e, consHead] at h
        rcases List.mem_cons.mp h with h | h
        · subst h
          intro hm
          rcases List.mem_cons.mp hm with h1 | h1
          · exact hc h1.symm
          · exact ih (e ▸ List.mem_cons_self g0 gs) h1
        · exact ih (e ▸ List.mem_cons_of_mem g0 h)

theorem joinSlash_append_single (gs : List (List Char)) (g : List Char)
    (h : gs ≠ []) : joinSlash (gs ++ [g]) = joinSlash gs ++ '/' :: g := by
  induction gs with
  | nil => exact absurd rfl h
  | cons a gs ih =>
    cases gs with
    | nil => simp [joinSlash]
    | cons b gs' =>
      show a ++ '/' :: joinSlash ((b :: gs') ++ [g]) =
        (a ++ '/' :: joinSlash (b :: gs')) ++ '/' :: g
      rw [ih (by simp)]
      simp

theorem splitSlash_joinSlash {gs : List (List Char)}
    (hs : ∀ g ∈ gs, '/' ∉ g) (hne : gs ≠ []) :
    splitSlash (joinSlash gs) = gs := by
  induction gs with
  | nil => exact absurd rfl hne
  | cons a gs ih =>
    cases gs with
    | nil => exact splitSlash_of_no_slash (hs a (List.mem_singleton.mpr rfl))
    | cons b gs' =>
      rw [joinSlash, splitSlash_append_slash _ (hs a (List.mem_cons_self a _)),
        ih (fun g hg => hs g (List.mem_cons_of_mem a hg)) (by simp)]

/-! Lemmas about the trailing-slash strip. -/

theorem rstripSlashCh_append_no_slash {g : List Char} (xs : List Char)
    (hne : g ≠ []) (h : '/' ∉ g) : rstripSlashCh (xs ++ g) = xs ++ g := by
  rcases e : g.reverse with _ | ⟨c, t⟩
  · exact absurd (by simpa using congrArg List.reverse e) hne
  · have hcg : c ∈ g := by
      have : c ∈ g.reverse := e ▸ List.mem_cons_self c t
      simpa using this
    have hc : ¬ c = '/' := fun hh => h (hh ▸ hcg)
    have : (xs ++ g).reverse.dropWhile (fun c => c == '/') =
        (xs ++ g).reverse := by
      rw [List.reverse_append, e, List.cons_append, List.dropWhile_cons,
        if_neg (by simp [hc])]
    rw [rstripSlashCh, this, List.reverse_reverse]

theorem rstripSlashCh_append_slash (xs : List Char) :
    rstripSlashCh (xs ++ ['/']) = rstripSlashCh xs := by
  rw [rstripSlashCh, rstripSlashCh, List.reverse_append]
  simp [List.dropWhile_cons]

theorem rstripSlashCh_no_slash {g : List Char} (h : '/' ∉ g) :
    rstripSlashCh g = g := by
  by_cases hne : g = []
  · subst hne
    rfl
  · have := rstripSlashCh_append_no_slash (g := g) [] hne h
    simpa using this

/-- A three-segment slash-free path is a fixed point of the path
rewriting. -/

theorem normalizePath_fixed (netloc : String) (a b c : List Char)
    (hs : supportedHost netloc = true)
    (ha : '/' ∉ a) (hb : '/' ∉ b) (hc : '/' ∉ c) :
    normalizePath netloc (String.mk (joinSlash [a, b, c])) =
      String.mk (joinSlash [a, b, c]) := by
  have hjoin : joinSlash [a, b, c] = a ++ '/' :: (b ++ '/' :: c) := by
    simp [joinSlash]
  by_cases hcne : c = []
  · subst hcne
    by_cases hbne : b = []
    · subst hbne
      have hshape : joinSlash [a, [], []] = (a ++ ['/']) ++ ['/'] := by
        rw [hjoin]
        simp
      have hstrip : rstripSlashCh (joinSlash [a, [], ([] : List Char)]) = a := by
        rw [hshape, rstripSlashCh_append_slash, rstripSlashCh_append_slash,
          rstripSlashCh_no_slash ha]
      simp only [normalizePath, if_pos hs, rstripSlash, hstrip,
        splitSlash_of_no_slash ha]
      rw [if_neg (by simp)]
    · have hshape : joinSlash [a, b, []] = (a ++ '/' :: b) ++ ['/'] := by
        rw [hjoin]
        simp
      have hstrip : rstripSlashCh (joinSlash [a, b, ([] : List Char)]) =
          a ++ '/' :: b := by
        rw [hshape, rstripSlashCh_append_slash]
        have : a ++ '/' :: b = (a ++ ['/']) ++ b := by simp
        rw [this, rstripSlashCh_append_no_slash _ hbne hb, ← this]
      simp only [normalizePath, if_pos hs, rstripSlash, hstrip,
        splitSlash_append_slash _ ha, splitSlash_of_no_slash hb]
      rw [if_neg (by simp)]
  · have hstrip : rstripSlashCh (joinSlash [a, b, c]) = joinSlash [a, b, c] := by
      have hshape : joinSlash [a, b, c] = (a ++ '/' :: b ++ ['/']) ++ c := by
        rw [hjoin]
        simp
      rw [hshape, rstripSlashCh_append_no_slash _ hcne hc]
    have hsplit : splitSlash (joinSlash [a, b, c]) = [a, b, c] := by
      apply splitSlash_joinSlash _ (by simp)
      intro g hg
      simp only [List.mem_cons, List.mem_singleton, List.not_mem_nil,
        or_false] at hg
      rcases hg with rfl | rfl | rfl
      · exact ha
      · exact hb
      · exact hc
    simp only [normalizePath, if_pos hs, rstripSlash, hstrip, hsplit]
    rw [if_pos (by simp)]
    rfl

/-- The path rewriting is idempotent on every input. -/

theorem normalizePath_idem (netloc p : String) :
    normalizePath netloc (normalizePath netloc p) = normalizePath netloc p := by
  by_cases hs : supportedHost netloc = true
  · by_cases hlen : 3 ≤ (splitSlash (rstripSlash p).data).length
    · obtain ⟨a, b, c, rest, hP⟩ : ∃ a b c rest,
          splitSlash (rstripSlash p).data = a :: b :: c :: rest := by
        rcases e : splitSlash (rstripSlash p).data with _ | ⟨a, l1⟩
        · rw [e] at hlen
          simp at hlen
        rcases l1 with _ | ⟨b, l2⟩
        · rw [e] at hlen
          simp at hlen
        rcases l2 with _ | ⟨c, l3⟩
        · rw [e] at hlen
          simp at hlen
        exact ⟨a, b, c, l3, rfl⟩
      have hmem : ∀ x ∈ [a, b, c], '/' ∉ x := by
        intro x hx
        apply no_slash_of_mem_splitSlash (l := (rstripSlash p).data)
        rw [hP]
        simp only [List.mem_cons, List.mem_singleton, List.not_mem_nil,
          or_false] at hx
        rcases hx with rfl | rfl | rfl
        · exact List.mem_cons_self _ _
        · exact List.mem_cons_of_mem _ (List.mem_cons_self _ _)
        · exact List.mem_cons_of_mem _
            (List.mem_cons_of_mem _ (List.mem_cons_self _ _))
      have hq : normalizePath netloc p = String.mk (joinSlash [a, b, c]) := by
        simp only [normalizePath, if_pos hs, hP]
        rw [if_pos (by simp)]
        rfl
      rw [hq]
      exact normalizePath_fixed netloc a b c hs
        (hmem a (by simp)) (hmem b (by simp)) (hmem c (by simp))
    · have hp : normalizePath netloc p = p := by
        simp only [normalizePath, if_pos hs]
        rw [if_neg hlen]
      rw [hp]
      exact hp
  · simp [normalizePath, hs]

theorem data_mk (l : List Char) : (String.mk l).data = l := rfl

/-- The string the function returns is the rendering of the rewritten
parsed URL. -/

theorem normalize_repo_url_eq_render (u : Url) :
    normalize_repo_url u = render (normalizeUrl u) := by
  simp only [normalize_repo_url, render, normalizeUrl, normalizePath]
  split_ifs <;> rfl

/-- Claim C8: normalization is idempotent on every parsed URL, supported
host or not, and on an unsupported host the output is the scheme, network
location and path re-joined with the path content unchanged. -/

theorem claim_C8 :
    (∀ u : Url, normalizeUrl (normalizeUrl u) = normalizeUrl u)
    ∧ (∀ u : Url, normalize_repo_url (normalizeUrl u) = normalize_repo_url u)
    ∧ (∀ u : Url, supportedHost u.netloc = false →
        normalize_repo_url u = u.scheme ++ "://" ++ u.netloc ++ u.path) := by
  refine ⟨?_, ?_, ?_⟩
  · intro u
    simp only [normalizeUrl]
    rw [normalizePath_idem]
  · intro u
    rw [normalize_repo_url_eq_render, normalize_repo_url_eq_render]
    simp only [normalizeUrl]
    rw [normalizePath_idem]
  · intro u hns
    simp only [normalize_repo_url]
    rw [if_neg (by simp [hns])]

/-- Witness for C8's unsupported-host conjunct at a concrete URL. -/

theorem claim_C8_witness :
    supportedHost "example.com" = false ∧
    normalize_repo_url ⟨"https", "example.com", "/a/b/c"⟩ =
      "https" ++ "://" ++ "example.com" ++ "/a/b/c" :=
  ⟨by decide, claim_C8.2.2 ⟨"https", "example.com", "/a/b/c"⟩ (by decide)⟩

/-- Claim C7: on a supported host, a path of the form
owner/repo/extra-segments is truncated to exactly scheme://host/owner/repo,
dropping every segment beyond the first three produced by the split. -/

theorem claim_C7 (scheme netloc owner repo : String) (rest : List (List Char))
    (hsup : supportedHost netloc = true)
    (ho : '/' ∉ owner.data) (hr : '/' ∉ repo.data)
    (hrest : rest ≠ []) (hrg : ∀ g ∈ rest, g ≠ [] ∧ '/' ∉ g) :
    normalize_repo_url
        ⟨scheme, netloc,
          String.mk (joinSlash ([[], owner.data, repo.data] ++ rest))⟩ =
      scheme ++ "://" ++ netloc ++ "/" ++ owner ++ "/" ++ repo := by
  have hglast := hrg (rest.getLast hrest) (List.getLast_mem hrest)
  have hL : [[], owner.data, repo.data] ++ rest =
      ([[], owner.data, repo.data] ++ rest.dropLast) ++
        [rest.getLast hrest] := by
    rw [List.append_assoc, List.dropLast_append_getLast hrest]
  have hjoin : joinSlash ([[], owner.data, repo.data] ++ rest) =
      joinSlash ([[], owner.data, repo.data] ++ rest.dropLast) ++
        '/' :: rest.getLast hrest := by
    rw [hL, joinSlash_append_single _ _ (by simp)]
  have hstrip :
      rstripSlashCh (joinSlash ([[], owner.data, repo.data] ++ rest)) =
        joinSlash ([[], owner.data, repo.data] ++ rest) := by
    rw [hjoin]
    have h2 : joinSlash ([[], owner.data, repo.data] ++ rest.dropLast) ++
        '/' :: rest.getLast hrest =
        (joinSlash ([[], owner.data, repo.data] ++ rest.dropLast) ++ ['/']) ++
          rest.getLast hrest := by
      simp
    rw [h2, rstripSlashCh_append_no_slash _ hglast.1 hglast.2]
  have hsplit :
      splitSlash (joinSlash ([[], owner.data, repo.data] ++ rest)) =
        [[], owner.data, repo.data] ++ rest := by
    apply splitSlash_joinSlash _ (by simp)
    intro g hg
    rcases List.mem_append.mp hg with hg | hg
    · simp only [List.mem_cons, List.mem_singleton, List.not_mem_nil,
        or_false] at hg
      rcases hg with rfl | rfl | rfl
      · simp
      · exact ho
      · exact hr
    · exact (hrg g hg).2
  have htake : ([[], owner.data, repo.data] ++ rest).take 3 =
      [[], owner.data, repo.data] := rfl
  simp only [normalize_repo_url, rstripSlash, data_mk, hstrip, hsplit]
  rw [if_pos hsup, if_pos (by simp), htake]
  apply strEqOfData
  have hslash : "/".data = ['/'] := rfl
  simp [data_append, data_mk, joinSlash, hslash]

/-- Witness for C7: github.com/owner/repo/tree/main truncates to
https://github.com/owner/repo. -/

theorem claim_C7_witness :
    supportedHost "github.com" = true ∧
    String.mk (joinSlash ([[], "owner".data, "repo".data] ++
      ["tree".data, "main".data])) = "/owner/repo/tree/main" ∧
    normalize_repo_url ⟨"https", "github.com",
        String.mk (joinSlash ([[], "owner".data, "repo".data] ++
          ["tree".data, "main".data]))⟩ =
      "https" ++ "://" ++ "github.com" ++ "/" ++ "owner" ++ "/" ++ "repo" :=
  ⟨by decide, by decide,
    claim_C7 "https" "github.com" "owner" "repo" ["tree".data, "main".data]
      (by decide) (by decide) (by decide) (by decide) (by decide)⟩

/-! Lemmas about the recorded build files. -/

theorem scanFile_gradlew (d : FPath) (r : BuildFiles) (f : FsFile) :
    (scanFile d r f).gradlew =
      if f.name = "gradlew" then some (d ++ ["gradlew"]) else r.gradlew := by
  simp only [scanFile]
  split_ifs <;> simp_all

theorem scanFile_build_gradle (d : FPath) (r : BuildFiles) (f : FsFile) :
    (scanFile d r f).build_gradle =
      if f.name = "build.gradle" then some (d ++ ["build.gradle"])
      else r.build_gradle := by
  simp only [scanFile]
  split_ifs <;> simp_all

theorem scanFile_build_gradle_kts (d : FPath) (r : BuildFiles) (f : FsFile) :
    (scanFile d r f).build_gradle_kts =
      if f.name = "build.gradle.kts" then some (d ++ ["build.gradle.kts"])
      else r.build_gradle_kts := by
  simp only [scanFile]
  split_ifs <;> simp_all

theorem scanFile_pom_xml (d : FPath) (r : BuildFiles) (f : FsFile) :
    (scanFile d r f).pom_xml =
      if f.name = "pom.xml" then some (d ++ ["pom.xml"])
      else r.pom_xml := by
  simp only [scanFile]
  split_ifs <;> simp_all

theorem scanDir_gradlew (d : FPath) (fs : List FsFile) (r : BuildFiles) :
    (scanDir r d fs).gradlew =
      if "gradlew" ∈ fs.map FsFile.name then some (d ++ ["gradlew"])
      else r.gradlew := by
  induction fs generalizing r with
  | nil => simp [scanDir]
  | cons f fs ih =>
    simp only [scanDir, List.foldl_cons] at *
    rw [ih, scanFile_gradlew]
    by_cases h1 : "gradlew" ∈ fs.map FsFile.name
    · simp [h1]
    · by_cases h2 : f.name = "gradlew"
      · simp [List.mem_cons, h1, h2]
      · have hnm : "gradlew" ∉ (f :: fs).map FsFile.name := by
          rw [List.map_cons]
          intro hm
          rcases List.mem_cons.mp hm with e | e
          · exact h2 e.symm
          · exact h1 e
        rw [if_neg h1, if_neg h2, if_neg hnm]

theorem scanDir_build_gradle (d : FPath) (fs : List FsFile) (r : BuildFiles) :
    (scanDir r d fs).build_gradle =
      if "build.gradle" ∈ fs.map FsFile.name then
        some (d ++ ["build.gradle"])
      else r.build_gradle := by
  induction fs generalizing r with
  | nil => simp [scanDir]
  | cons f fs ih =>
    simp only [scanDir, List.foldl_cons] at *
    rw [ih, scanFile_build_gradle]
    by_cases h1 : "build.gradle" ∈ fs.map FsFile.name
    · simp [h1]
    · by_cases h2 : f.name = "build.gradle"
      · simp [List.mem_cons, h1, h2]
      · have hnm : "build.gradle" ∉ (f :: fs).map FsFile.name := by
          rw [List.map_cons]
          intro hm
          rcases List.mem_cons.mp hm with e | e
          · exact h2 e.symm
          · exact h1 e
        rw [if_neg h1, if_neg h2, if_neg hnm]

theorem scanDir_build_gradle_kts (d : FPath) (fs : List FsFile)
    (r : BuildFiles) :
    (scanDir r d fs).build_gradle_kts =
      if "build.gradle.kts" ∈ fs.map FsFile.name then
        some (d ++ ["build.gradle.kts"])
      else r.build_gradle_kts := by
  induction fs generalizing r with
  | nil => simp [scanDir]
  | cons f fs ih =>
    simp only [scanDir, List.foldl_cons] at *
    rw [ih, scanFile_build_gradle_kts]
    by_cases h1 : "build.gradle.kts" ∈ fs.map FsFile.name
    · simp [h1]
    · by_cases h2 : f.name = "build.gradle.kts"
      · simp [List.mem_cons, h1, h2]
      · have hnm : "build.gradle.kts" ∉ (f :: fs).map FsFile.name := by
          rw [List.map_cons]
          intro hm
          rcases List.mem_cons.mp hm with e | e
          · exact h2 e.symm
          · exact h1 e
        rw [if_neg h1, if_neg h2, if_neg hnm]

theorem scanDir_pom_xml (d : FPath) (fs : List FsFile) (r : BuildFiles) :
    (scanDir r d fs).pom_xml =
      if "pom.xml" ∈ fs.map FsFile.name then some (d ++ ["pom.xml"])
      else r.pom_xml := by
  induction fs generalizing r with
  | nil => simp [scanDir]
  | cons f fs ih =>
    simp only [scanDir, List.foldl_cons] at *
    rw [ih, scanFile_pom_xml]
    by_cases h1 : "pom.xml" ∈ fs.map FsFile.name
    · simp [h1]
    · by_cases h2 : f.name = "pom.xml"
      · simp [List.mem_cons, h1, h2]
      · have hnm : "pom.xml" ∉ (f :: fs).map FsFile.name := by
          rw [List.map_cons]
          intro hm
          rcases List.mem_cons.mp hm with e | e
          · exact h2 e.symm
          · exact h1 e
        rw [if_neg h1, if_neg h2, if_neg hnm]

/-- When no directory holds a gradlew, the walk loop never exits early and
degenerates to a plain fold over all entries. -/

theorem fbLoop_eq_foldl {entries : List (FPath × List FsFile)}
    (h : ∀ e ∈ entries, "gradlew" ∉ e.2.map FsFile.name)
    (r : BuildFiles) (hr : r.gradlew = none) :
    fbLoop r entries =
      entries.foldl (fun acc e => scanDir acc e.1 e.2) r := by
  induction entries generalizing r with
  | nil => rfl
  | cons e rest ih =>
    obtain ⟨d, fs⟩ := e
    have hg : (scanDir r d fs).gradlew = none := by
      rw [scanDir_gradlew, if_neg (h (d, fs) (List.mem_cons_self _ _)), hr]
    simp only [fbLoop, List.foldl_cons]
    rw [hg]
    simp only [Option.isSome_none, Bool.false_eq_true, if_false]
    exact ih (fun e he => h e (List.mem_cons_of_mem _ he)) _ hg

theorem lastPathOf_of_not_mem {nm : String}
    {entries : List (FPath × List FsFile)}
    (h : ∀ e ∈ entries, nm ∉ e.2.map FsFile.name) (start : Option FPath) :
    lastPathOf nm entries start = start := by
  induction entries generalizing start with
  | nil => rfl
  | cons e rest ih =>
    simp only [lastPathOf, List.foldl_cons,
      if_neg (h e (List.mem_cons_self _ _))]
    exact ih (fun e he => h e (List.mem_cons_of_mem _ he)) start

theorem foldl_scan_gradlew (entries : List (FPath × List FsFile))
    (r : BuildFiles) :
    (entries.foldl (fun acc e => scanDir acc e.1 e.2) r).gradlew =
      lastPathOf "gradlew" entries r.gradlew := by
  induction entries generalizing r with
  | nil => rfl
  | cons e rest ih =>
    simp only [List.foldl_cons, lastPathOf] at *
    rw [ih, scanDir_gradlew]

theorem foldl_scan_build_gradle (entries : List (FPath × List FsFile))
    (r : BuildFiles) :
    (entries.foldl (fun acc e => scanDir acc e.1 e.2) r).build_gradle =
      lastPathOf "build.gradle" entries r.build_gradle := by
  induction entries generalizing r with
  | nil => rfl
  | cons e rest ih =>
    simp only [List.foldl_cons, lastPathOf] at *
    rw [ih, scanDir_build_gradle]

theorem foldl_scan_build_gradle_kts (entries : List (FPath × List FsFile))
    (r : BuildFiles) :
    (entries.foldl (fun acc e => scanDir acc e.1 e.2) r).build_gradle_kts =
      lastPathOf "build.gradle.kts" entries r.build_gradle_kts := by
  induction entries generalizing r with
  | nil => rfl
  | cons e rest ih =>
    simp only [List.foldl_cons, lastPathOf] at *
    rw [ih, scanDir_build_gradle_kts]

theorem foldl_scan_pom_xml (entries : List (FPath × List FsFile))
    (r : BuildFiles) :
    (entries.foldl (fun acc e => scanDir acc e.1 e.2) r).pom_xml =
      lastPathOf "pom.xml" entries r.pom_xml := by
  induction entries generalizing r with
  | nil => rfl
  | cons e rest ih =>
    simp only [List.foldl_cons, lastPathOf] at *
    rw [ih, scanDir_pom_xml]

theorem fbf_gradlew_none {t : FsTree}
    (h : ∀ e ∈ t.walk [], "gradlew" ∉ e.2.map FsFile.name) :
    (find_build_files t).gradlew = none := by
  unfold find_build_files
  rw [fbLoop_eq_foldl h _ rfl, foldl_scan_gradlew, lastPathOf_of_not_mem h]

theorem fbf_build_gradle {t : FsTree}
    (h : ∀ e ∈ t.walk [], "gradlew" ∉ e.2.map FsFile.name) :
    (find_build_files t).build_gradle =
      lastPathOf "build.gradle" (t.walk []) none := by
  unfold find_build_files
  rw [fbLoop_eq_foldl h _ rfl, foldl_scan_build_gradle]

theorem fbf_build_gradle_kts {t : FsTree}
    (h : ∀ e ∈ t.walk [], "gradlew" ∉ e.2.map FsFile.name) :
    (find_build_files t).build_gradle_kts =
      lastPathOf "build.gradle.kts" (t.walk []) none := by
  unfold find_build_files
  rw [fbLoop_eq_foldl h _ rfl, foldl_scan_build_gradle_kts]

theorem fbf_pom_xml {t : FsTree}
    (h : ∀ e ∈ t.walk [], "gradlew" ∉ e.2.map FsFile.name) :
    (find_build_files t).pom_xml =
      lastPathOf "pom.xml" (t.walk []) none := by
  unfold find_build_files
  rw [fbLoop_eq_foldl h _ rfl, foldl_scan_pom_xml]

/-- Claim C4: on any tree whose root directory holds a gradlew (and no
pom.xml of its own), detection is decided by the root scan alone, whatever
the subtrees hold: the walk stops right after the root's file list, the
descriptor is a GradleWrapper rooted at the root directory, and the deeper
pom.xml is never recorded. -/

theorem claim_C4 (rootName : String) (files : List FsFile)
    (subs : List FsTree)
    (hgr : "gradlew" ∈ files.map FsFile.name)
    (hpom : "pom.xml" ∉ files.map FsFile.name) :
    find_build_files (FsTree.node rootName files subs) =
      scanDir ⟨none, none, none, none⟩ [rootName] files
    ∧ (find_build_files (FsTree.node rootName files subs)).gradlew =
        some [rootName, "gradlew"]
    ∧ detect (find_build_files (FsTree.node rootName files subs)) =
        ⟨BuildKind.gradleWrapper, [rootName]⟩
    ∧ (find_build_files (FsTree.node rootName files subs)).pom_xml = none := by
  have hscan_g :
      (scanDir ⟨none, none, none, none⟩ [rootName] files).gradlew =
        some [rootName, "gradlew"] := by
    rw [scanDir_gradlew, if_pos hgr]
    rfl
  have hmain : find_build_files (FsTree.node rootName files subs) =
      scanDir ⟨none, none, none, none⟩ [rootName] files := by
    unfold find_build_files
    have hwalk : (FsTree.node rootName files subs).walk [] =
        ([rootName], files) :: walkForest subs [rootName] := rfl
    rw [hwalk]
    simp only [fbLoop]
    rw [hscan_g]
    rfl
  refine ⟨hmain, ?_, ?_, ?_⟩
  · rw [hmain, hscan_g]
  · unfold detect
    rw [hmain, hscan_g]
    rfl
  · rw [hmain, scanDir_pom_xml, if_neg hpom]

/-- Witness for C4: gradlew at the root, pom.xml only in a subdirectory. -/

theorem claim_C4_witness :
    ("gradlew" ∈ ([⟨"gradlew", 0⟩, ⟨"readme.txt", 1⟩] :
        List FsFile).map FsFile.name) ∧
    ("pom.xml" ∉ ([⟨"gradlew", 0⟩, ⟨"readme.txt", 1⟩] :
        List FsFile).map FsFile.name) ∧
    (find_build_files (FsTree.node "root" [⟨"gradlew", 0⟩, ⟨"readme.txt", 1⟩]
        [FsTree.node "sub" [⟨"pom.xml", 2⟩] []]) =
      scanDir ⟨none, none, none, none⟩ ["root"]
        [⟨"gradlew", 0⟩, ⟨"readme.txt", 1⟩]
    ∧ (find_build_files (FsTree.node "root"
        [⟨"gradlew", 0⟩, ⟨"readme.txt", 1⟩]
        [FsTree.node "sub" [⟨"pom.xml", 2⟩] []])).gradlew =
        some ["root", "gradlew"]
    ∧ detect (find_build_files (FsTree.node "root"
        [⟨"gradlew", 0⟩, ⟨"readme.txt", 1⟩]
        [FsTree.node "sub" [⟨"pom.xml", 2⟩] []])) =
        ⟨BuildKind.gradleWrapper, ["root"]⟩
    ∧ (find_build_files (FsTree.node "root"
        [⟨"gradlew", 0⟩, ⟨"readme.txt", 1⟩]
        [FsTree.node "sub" [⟨"pom.xml", 2⟩] []])).pom_xml = none) :=
  ⟨by decide, by decide,
    claim_C4 "root" [⟨"gradlew", 0⟩, ⟨"readme.txt", 1⟩]
      [FsTree.node "sub" [⟨"pom.xml", 2⟩] []] (by decide) (by decide)⟩

/-- Claim C5: when the walk finds no gradlew anywhere, the chosen build
action is SystemGradle in the directory that last held a build.gradle
(preferring the plain build.gradle over build.gradle.kts when both were
seen), else SystemGradle at the last build.gradle.kts, else Maven in the
last directory holding pom.xml — so a tree with only pom.xml at root/sub
detects as Maven at root/sub — else no build at all, in which case
run_build fails at once with no command issued. -/

theorem claim_C5 (t : FsTree) (env : RunEnv) (ps win32 : Bool)
    (hng : ∀ e ∈ t.walk [], "gradlew" ∉ e.2.map FsFile.name) :
    (detect (find_build_files t) =
      match lastPathOf "build.gradle" (t.walk []) none with
      | some p => ⟨BuildKind.systemGradle, dirname p⟩
      | none =>
        match lastPathOf "build.gradle.kts" (t.walk []) none with
        | some p => ⟨BuildKind.systemGradle, dirname p⟩
        | none =>
          match lastPathOf "pom.xml" (t.walk []) none with
          | some p => ⟨BuildKind.maven, dirname p⟩
          | none => ⟨BuildKind.noBuild, []⟩)
    ∧ ((detect (find_build_files t)).kind = BuildKind.noBuild →
        run_build t env ps win32 = (false, [], []))
    ∧ detect (find_build_files (FsTree.node "root" []
        [FsTree.node "sub" [⟨"pom.xml", 0⟩] []])) =
        ⟨BuildKind.maven, ["root", "sub"]⟩ := by
  have hg := fbf_gradlew_none hng
  have hb := fbf_build_gradle hng
  have hk := fbf_build_gradle_kts hng
  have hp := fbf_pom_xml hng
  refine ⟨?_, ?_, ?_⟩
  · unfold detect
    rw [hg, hb, hk, hp]
  · intro hkind
    have hbn : lastPathOf "build.gradle" (t.walk []) none = none := by
      rcases e : lastPathOf "build.gradle" (t.walk []) none with _ | p
      · rfl
      · exfalso
        unfold detect at hkind
        rw [hg, hb, e] at hkind
        simp at hkind
    have hkn : lastPathOf "build.gradle.kts" (t.walk []) none = none := by
      rcases e : lastPathOf "build.gradle.kts" (t.walk []) none with _ | p
      · rfl
      · exfalso
        unfold detect at hkind
        rw [hg, hb, hbn, hk, e] at hkind
        simp at hkind
    have hpn : lastPathOf "pom.xml" (t.walk []) none = none := by
      rcases e : lastPathOf "pom.xml" (t.walk []) none with _ | p
      · rfl
      · exfalso
        unfold detect at hkind
        rw [hg, hb, hbn, hk, hkn, hp, e] at hkind
        simp at hkind
    simp only [run_build]
    rw [hg, hb, hbn, hk, hkn, hp, hpn]
  · have hwalk : (FsTree.node "root" []
        [FsTree.node "sub" [⟨"pom.xml", 0⟩] []]).walk [] =
        [(["root"], []), (["root", "sub"], [⟨"pom.xml", 0⟩])] := rfl
    unfold find_build_files
    rw [hwalk]
    decide

/-- Witness for C5 at a concrete gradlew-free tree with one pom.xml. -/

theorem claim_C5_witness :
    (∀ e ∈ (FsTree.node "root" [] [FsTree.node "sub" [⟨"pom.xml", 0⟩] []]).walk
      [], "gradlew" ∉ e.2.map FsFile.name) ∧
    detect (find_build_files (FsTree.node "root" []
        [FsTree.node "sub" [⟨"pom.xml", 0⟩] []])) =
      match lastPathOf "build.gradle" ((FsTree.node "root" []
          [FsTree.node "sub" [⟨"pom.xml", 0⟩] []]).walk []) none with
      | some p => ⟨BuildKind.systemGradle, dirname p⟩
      | none =>
        match lastPathOf "build.gradle.kts" ((FsTree.node "root" []
            [FsTree.node "sub" [⟨"pom.xml", 0⟩] []]).walk []) none with
        | some p => ⟨BuildKind.systemGradle, dirname p⟩
        | none =>
          match lastPathOf "pom.xml" ((FsTree.node "root" []
              [FsTree.node "sub" [⟨"pom.xml", 0⟩] []]).walk []) none with
          | some p => ⟨BuildKind.maven, dirname p⟩
          | none => ⟨BuildKind.noBuild, []⟩ :=
  ⟨by decide,
    (claim_C5 (FsTree.node "root" [] [FsTree.node "sub" [⟨"pom.xml", 0⟩] []])
      ⟨fun _ _ => false, FsTree.node "root" [] []⟩ true false (by decide)).1⟩

/-- Claim C1: executing a GradleWrapper descriptor with the shadow
preference enabled always issues the optional shadowJar command and then
the mandatory build command, whatever the shadow command's exit status; the
run succeeds only if the mandatory build command exits with status zero. -/

theorem claim_C1 (t : FsTree) (env : RunEnv) (win32 : Bool) (gp : FPath)
    (h : (find_build_files t).gradlew = some gp) :
    (run_build t env true win32).2.2 =
      [(shadowCmd win32, dirname gp), (buildCmd win32, dirname gp)]
    ∧ ((run_build t env true win32).1 = true →
        env.exec (buildCmd win32) (dirname gp) = true) := by
  simp only [run_build]
  rw [h]
  by_cases hok : env.exec (buildCmd win32) (dirname gp)
  · simp [hok]
  · simp [hok]

/-- Witness for C1: the shadow command fails, the build command succeeds,
both appear in order in the trace. -/

theorem claim_C1_witness :
    (find_build_files (FsTree.node "root" [⟨"gradlew", 0⟩] [])).gradlew =
      some ["root", "gradlew"] ∧
    ((run_build (FsTree.node "root" [⟨"gradlew", 0⟩] [])
        ⟨fun c _ => c == buildCmd false,
          FsTree.node "root" [⟨"plugin.jar", 3⟩] []⟩ true false).2.2 =
      [(shadowCmd false, dirname ["root", "gradlew"]),
        (buildCmd false, dirname ["root", "gradlew"])]
    ∧ ((run_build (FsTree.node "root" [⟨"gradlew", 0⟩] [])
        ⟨fun c _ => c == buildCmd false,
          FsTree.node "root" [⟨"plugin.jar", 3⟩] []⟩ true false).1 = true →
        (⟨fun c _ => c == buildCmd false,
          FsTree.node "root" [⟨"plugin.jar", 3⟩] []⟩ : RunEnv).exec
          (buildCmd false) (dirname ["root", "gradlew"]) = true)) :=
  ⟨by decide,
    claim_C1 (FsTree.node "root" [⟨"gradlew", 0⟩] [])
      ⟨fun c _ => c == buildCmd false, FsTree.node "root" [⟨"plugin.jar", 3⟩] []⟩
      false ["root", "gradlew"] (by decide)⟩

/-- Claim C6: for a GitHub URL the fallback tries main, master and develop
archives in that order; every failing candidate (error status or
fetch/extract exception) is absorbed and the next one tried; the first
winning candidate ends the search successfully with the remaining
candidates never attempted; and the fallback fails only after every
candidate has been attempted and failed. -/

theorem claim_C6 :
    (∀ (u : Url) (env : ZipEnv),
      strContains (strToLower u.netloc) "github.com" = true →
      try_zip_download u env = tryCands env
        [render u ++ "/archive/refs/heads/main.zip",
          render u ++ "/archive/refs/heads/master.zip",
          render u ++ "/archive/refs/heads/develop.zip"])
    ∧ (∀ (env : ZipEnv) (pre post : List String) (c : String),
        (∀ p ∈ pre, ¬ zipSucceeds env p) → zipSucceeds env c →
        tryCands env (pre ++ c :: post) = (true, pre ++ [c]))
    ∧ (∀ (env : ZipEnv) (cs : List String),
        (∀ c ∈ cs, ¬ zipSucceeds env c) → tryCands env cs = (false, cs)) := by
  refine ⟨?_, ?_, ?_⟩
  · intro u env h
    simp only [try_zip_download]
    rw [if_pos h]
  · intro env pre post c hpre hc
    induction pre with
    | nil => simp [tryCands, hc.1, hc.2]
    | cons p pre ih =>
      have hp := hpre p (List.mem_cons_self p pre)
      have ihres := ih (fun q hq => hpre q (List.mem_cons_of_mem p hq))
      simp only [List.cons_append, tryCands]
      rcases e : env.status p with _ | code
      · simp [ihres]
      · by_cases h200 : code = 200
        · subst h200
          have hext : env.extractOk p = false := by
            rcases ee : env.extractOk p
            · rfl
            · exact absurd ⟨e, ee⟩ hp
          simp [hext, ihres]
        · simp [h200, ihres]
  · intro env cs hall
    induction cs with
    | nil => rfl
    | cons c cs ih =>
      have hc := hall c (List.mem_cons_self c cs)
      have ihres := ih (fun q hq => hall q (List.mem_cons_of_mem c hq))
      simp only [tryCands]
      rcases e : env.status c with _ | code
      · simp [ihres]
      · by_cases h200 : code = 200
        · subst h200
          have hext : env.extractOk c = false := by
            rcases ee : env.extractOk c
            · rfl
            · exact absurd ⟨e, ee⟩ hc
          simp [hext, ihres]
        · simp [h200, ihres]

/-- Witness for C6: with a 404 first candidate and a winning second one,
the loop stops after the second; the third is never attempted. -/

theorem claim_C6_witness :
    (∀ p ∈ ["a"], ¬ zipSucceeds envC6 p) ∧ zipSucceeds envC6 "b" ∧
    tryCands envC6 (["a"] ++ "b" :: ["c"]) = (true, ["a"] ++ ["b"]) :=
  ⟨by decide, by decide,
    claim_C6.2.1 envC6 ["a"] ["c"] "b" (by decide) (by decide)⟩

/-- Claim C9: on every exit path of a run — success, expected stage
failure, or caught exception — a created working tree is deleted exactly
when the retention flag is off and surfaced instead exactly when it is on,
and the exit status always passes through the cleanup untouched. -/

theorem claim_C9 (env : WorkerEnv) (keep_temp : Bool) :
    (worker_process env keep_temp).deleted =
      ((worker_process env keep_temp).tmpdir.isSome && !keep_temp)
    ∧ (worker_process env keep_temp).surfaced =
      ((worker_process env keep_temp).tmpdir.isSome && keep_temp)
    ∧ (worker_process env keep_temp).exit = (workerBody env).2
    ∧ (worker_process env keep_temp).tmpdir = (workerBody env).1 := by
  unfold worker_process workerCleanup
  rcases workerBody env with ⟨_ | p, e⟩
  · simp
  · cases keep_temp <;> simp

end Ocean
